import Mathlib

/-!
Verification development for the `composable-indexes` library: an in-memory
collection with composable secondary indexes kept in sync with a primary
store.  The core of the embedding is translated from
`composable-indexes/src/core/Index.ts` (the `Index` base class, the
`FocusedIndex` produced by `focus`/`premap`, and the `GroupedIndex`); parts
of the system whose sources are not in the repository snapshot (the
`Collection` facade, the `Update` event type with `mapUpdate`, the
`filtered` combinator, the keys leaf index, and the `IdMap` utility) are
modelled from the specification and are marked as such in their doc
comments.

Machine integers: identifiers are a 64-bit integer newtype in the source;
the collection issues them from a counter starting at 0 and no arithmetic
other than increment is performed on them, so they are embedded as `Nat`.
-/

namespace CompIdx

/-- Identifier: opaque id issued by the collection (64-bit newtype in the
source, embedded as `Nat`; only increment and comparison are used). -/
abbrev Id := Nat

/-- Modelled from the spec: the Update event envelope (spec section 3), a
tagged variant with three shapes.  The source file `core/Update.ts` is not
in the snapshot; the constructors and field names follow the uses visible
in `core/Index.ts` (`UpdateType.ADD`/`UPDATE`/`DELETE`, fields `id`,
`value`, `oldValue`, `newValue`). -/
inductive Update (A : Type u) where
  | add (id : Id) (value : A)
  | update (id : Id) (oldValue : A) (newValue : A)
  | delete (id : Id) (oldValue : A)
deriving DecidableEq, Repr

/-- The `type` discriminant of an update event (enum `UpdateType` in the
source). -/
inductive UpdateType where
  | ADD
  | UPDATE
  | DELETE
deriving DecidableEq, Repr

/-- `update.type`: the tag carried by each event variant. -/
def Update.type : Update A → UpdateType
  | .add .. => .ADD
  | .update .. => .UPDATE
  | .delete .. => .DELETE

/-- Modelled from the spec: `mapUpdate(f, update)` (used by
`FocusedIndex._onUpdate` in `core/Index.ts`; its own source `core/Update.ts`
is not in the snapshot).  Spec 4.5.1: "Add carries `f(new)`, remove carries
`f(old)`, update carries `(f(old), f(new))`." -/
def mapUpdate (f : A → B) : Update A → Update B
  | .add i v => .add i (f v)
  | .update i o n => .update i (f o) (f n)
  | .delete i o => .delete i (f o)

/-- Number of value sides an event carries (one for add/remove, two for
update). -/
def sideArity : Update A → Nat
  | .add .. => 1
  | .update .. => 2
  | .delete .. => 1

/-- Sum of the per-side annotations of an event over an annotated value
type; used to count how many times the projection of a focused index is
applied. -/
def sideCount : Update (A × Nat) → Nat
  | .add _ v => v.2
  | .update _ o n => o.2 + n.2
  | .delete _ o => o.2

/-- A shallow model of the `Index` observer/query contract of
`core/Index.ts`: an index over input type `In` with internal state `S`
publishes an observer (`_onUpdate`) and a query handle.  The observer may
fail (`none`), modelling the runtime assertions of the source. -/
structure IdxImpl (In : Type u) (S : Type v) (Q : Type w) where
  onUpdate : S → Update In → Option S
  queryOf : S → Q

/-- `focus(f, inner)` from `core/Index.ts` (also reachable as
`UnregisteredIndex.focus`): the resulting `FocusedIndex` transforms each
event through `mapUpdate f` before handing it to `inner`
(`FocusedIndex._onUpdate`), and its query handle is the inner index's own
query handle (`query: IndexQueries<Ix> = this.inner.query`). -/
def focus (f : NewIn → In) (inner : IdxImpl In S Q) : IdxImpl NewIn S Q where
  onUpdate := fun s u => inner.onUpdate s (mapUpdate f u)
  queryOf := inner.queryOf

/-! ### GroupedIndex, with inner indexes abstracted as event traces

`GroupedIndex` (`core/Index.ts`, lines 79-166) keeps a map from group key
to a lazily created inner index.  For the dispatch claims the inner
indexes are abstracted by the totally ordered trace of events forwarded to
them: the state records the registered group keys (`ixs.keys`, in creation
order) and a global log of `(group, event)` pairs in the order the inner
`_onUpdate` calls happen.  Group keys are `string | number` in the source,
embedded as `Nat`. -/

structure GroupedState (A : Type u) where
  ks : List Nat
  log : List (Nat × Update A)
deriving DecidableEq, Repr

/-- `GroupedIndex.getOrCreateGroup`: the registered-group set after a
get-or-create touch of group `k` (a fresh inner is registered on first
touch). -/
def getOrCreate (ks : List Nat) (k : Nat) : List Nat :=
  if k ∈ ks then ks else ks ++ [k]

/-- `GroupedIndex._onUpdate` (with `add`/`update`/`delete` inlined), over
the trace abstraction.  `none` models the non-null assertions
`this.ixs.get(group)!` firing on a group that was never registered.  On a
group-changing update the source first looks up the old group, gets or
creates the new group, and the returned thunk forwards a DELETE carrying
`oldValue` to the old inner and then an ADD carrying `newValue` to the new
inner, in that order. -/
def groupedOnUpdate (g : A → Nat) (s : GroupedState A) :
    Update A → Option (GroupedState A)
  | .add id v =>
      some ⟨getOrCreate s.ks (g v), s.log ++ [(g v, .add id v)]⟩
  | .update id o n =>
      if g o = g n then
        if g o ∈ s.ks then
          some ⟨s.ks, s.log ++ [(g o, .update id o n)]⟩
        else none
      else
        if g o ∈ s.ks then
          some ⟨getOrCreate s.ks (g n),
                s.log ++ [(g o, .delete id o), (g n, .add id n)]⟩
        else none
  | .delete id o =>
      if g o ∈ s.ks then
        some ⟨s.ks, s.log ++ [(g o, .delete id o)]⟩
      else none

/-- The dispatch skeleton of `GroupedIndex._onUpdate` (`core/Index.ts`
lines 103-113): an `if`/`else if` chain on `update.type` whose final
branch calls `unreachable(update)`; `none` models that fall-through
branch being taken. -/
def dispatchCase (u : Update A) : Option UpdateType :=
  if u.type = UpdateType.ADD then some UpdateType.ADD
  else if u.type = UpdateType.UPDATE then some UpdateType.UPDATE
  else if u.type = UpdateType.DELETE then some UpdateType.DELETE
  else none

/-! ### The index tree

A deep embedding of the index vocabulary needed by the collection-level
claims: the keys leaf (spec 4.3, "tracks only the set of identifiers
present"), `focus`/`premap` (from `core/Index.ts`), `filtered` (modelled
from spec 4.5.2, its source is not in the snapshot), `grouped` (from the
`GroupedIndex` class of `core/Index.ts`) and `zip` (modelled from spec
4.5.4: every event broadcast to each child in declaration order).

A grouped node keeps the total function `inners` from group key to inner
state together with the list `ks` of registered groups; for a key that was
never registered, `inners k` is the (untouched) template instance the
source would create on first touch, so `getOrCreateGroup` just records the
key. -/
inductive Ix : Type → Type 1 where
  | keys {A : Type} (ids : Multiset Id) : Ix A
  | focus {A B : Type} (f : A → B) (inner : Ix B) : Ix A
  | filtered {A : Type} (p : A → Bool) (inner : Ix A) : Ix A
  | grouped {A : Type} (g : A → Nat) (ks : List Nat) (inners : Nat → Ix A) : Ix A
  | zip {A : Type} (l r : Ix A) : Ix A

/-- The observer operation of every index of the tree, one mutation event
at a time.  `none` models a non-null assertion of the source failing (a
grouped index looking up a group that was never registered).
Per node:
* keys leaf: add inserts the id, update leaves the id set unchanged,
  remove erases the id (spec 4.3);
* focus: forward `mapUpdate f update` to the inner index
  (`FocusedIndex._onUpdate`);
* filtered: gate by the predicate; updates act by the in/out transition
  table of spec 4.5.2;
* grouped: dispatch per `GroupedIndex._onUpdate`: add goes to the
  get-or-created group of the new value; remove goes to the existing group
  of the old value; an update stays in its group when the group key is
  unchanged and otherwise becomes a remove on the old group followed by an
  add on the (get-or-created) new group;
* zip: broadcast to both children. -/
def Ix.onUpdate : {A : Type} → Ix A → Update A → Option (Ix A)
  | _, .keys ids, .add id _ => some (.keys (id ::ₘ ids))
  | _, .keys ids, .update _ _ _ => some (.keys ids)
  | _, .keys ids, .delete id _ => some (.keys (ids.erase id))
  | _, .focus f inner, u => (inner.onUpdate (mapUpdate f u)).map (.focus f)
  | _, .filtered p inner, .add id v =>
      if p v then (inner.onUpdate (.add id v)).map (.filtered p)
      else some (.filtered p inner)
  | _, .filtered p inner, .update id o n =>
      match p o, p n with
      | false, false => some (.filtered p inner)
      | false, true => (inner.onUpdate (.add id n)).map (.filtered p)
      | true, false => (inner.onUpdate (.delete id o)).map (.filtered p)
      | true, true => (inner.onUpdate (.update id o n)).map (.filtered p)
  | _, .filtered p inner, .delete id o =>
      if p o then (inner.onUpdate (.delete id o)).map (.filtered p)
      else some (.filtered p inner)
  | _, .grouped g ks inners, .add id v =>
      ((inners (g v)).onUpdate (.add id v)).map fun ix =>
        .grouped g (getOrCreate ks (g v)) (Function.update inners (g v) ix)
  | _, .grouped g ks inners, .update id o n =>
      if g o = g n then
        if g o ∈ ks then
          ((inners (g o)).onUpdate (.update id o n)).map fun ix =>
            .grouped g ks (Function.update inners (g o) ix)
        else none
      else
        if g o ∈ ks then
          ((inners (g o)).onUpdate (.delete id o)).bind fun oldIx =>
            ((inners (g n)).onUpdate (.add id n)).map fun newIx =>
              .grouped g (getOrCreate ks (g n))
                (Function.update (Function.update inners (g o) oldIx) (g n) newIx)
        else none
  | _, .grouped g ks inners, .delete id o =>
      if g o ∈ ks then
        ((inners (g o)).onUpdate (.delete id o)).map fun ix =>
          .grouped g ks (Function.update inners (g o) ix)
      else none
  | _, .zip l r, u =>
      (l.onUpdate u).bind fun l' => (r.onUpdate u).map fun r' => .zip l' r'

/-- Multiset of identifiers reachable from an index: the contents of every
keys leaf, grouped nodes contributing their registered groups. -/
def Ix.idsOf : {A : Type} → Ix A → Multiset Id
  | _, .keys ids => ids
  | _, .focus _ inner => inner.idsOf
  | _, .filtered _ inner => inner.idsOf
  | _, .grouped _ ks inners => (ks.map fun k => (inners k).idsOf).sum
  | _, .zip l r => l.idsOf + r.idsOf

/-- An index is non-filtering and non-grouping when no `filtered` or
`grouped` combinator occurs in it. -/
def Ix.plain : {A : Type} → Ix A → Bool
  | _, .keys _ => true
  | _, .focus _ inner => inner.plain
  | _, .filtered _ _ => false
  | _, .grouped _ _ _ => false
  | _, .zip l r => l.plain && r.plain

/-- The id multiset of each primary (keys) leaf reachable without crossing
a `filtered` or `grouped` combinator. -/
def Ix.leafIdMultisets : {A : Type} → Ix A → List (Multiset Id)
  | _, .keys ids => [ids]
  | _, .focus _ inner => inner.leafIdMultisets
  | _, .filtered _ _ => []
  | _, .grouped _ _ _ => []
  | _, .zip l r => l.leafIdMultisets ++ r.leafIdMultisets

/-- Synchronization invariant between an index and the current store
contents `σ` (as a multiset of `(id, value)` pairs):
* a keys leaf holds exactly the identifiers of `σ`;
* a focused index's inner is synchronized with the projected contents;
* a filtered index's inner is synchronized with the in-scope contents;
* every group of a grouped index is synchronized with the contents whose
  values map to that group, and every stored value's group is registered;
* both children of a zip are synchronized. -/
def Ix.good : {A : Type} → Ix A → Multiset (Id × A) → Prop
  | _, .keys ids, σ => ids = σ.map Prod.fst
  | _, .focus f inner, σ => inner.good (σ.map fun q => (q.1, f q.2))
  | _, .filtered p inner, σ => inner.good (σ.filter fun q => p q.2 = true)
  | _, .grouped g ks inners, σ =>
      (∀ k, (inners k).good (σ.filter fun q => g q.2 = k)) ∧
        ∀ q ∈ σ, g q.2 ∈ ks
  | _, .zip l r, σ => l.good σ ∧ r.good σ

/-! ### Store and Collection

Modelled from the spec: the `Store` (spec 4.1, a mapping from identifier
to item value, embedded as an association list with pairwise distinct
keys) and the `Collection` facade (spec 4.6); their sources are not in the
snapshot.  Every mutating operation (1) updates the store, (2) synthesizes
the event from the captured old/new pair, and (3) invokes the root index's
observer. -/

/-- `store.get(id)`: first (only) entry with the given identifier. -/
def storeLookup : List (Id × A) → Id → Option A
  | [], _ => none
  | q :: rest, id => if q.1 = id then some q.2 else storeLookup rest id

/-- `store.replace(id, value)`: overwrite the entry for `id` in place. -/
def storeReplace : List (Id × A) → Id → A → List (Id × A)
  | [], _, _ => []
  | q :: rest, id, v =>
      if q.1 = id then (id, v) :: storeReplace rest id v
      else q :: storeReplace rest id v

/-- `store.remove(id)`: delete the entry for `id`. -/
def storeRemove : List (Id × A) → Id → List (Id × A)
  | [], _ => []
  | q :: rest, id =>
      if q.1 = id then storeRemove rest id else q :: storeRemove rest id

/-- Modelled from the spec: the collection facade holding the
strictly-monotonic id counter, the store and the root index. -/
structure Collection (A : Type) : Type 1 where
  nextId : Id
  store : List (Id × A)
  root : Ix A

/-- A fresh collection: counter at 0, empty store, root index as given by
the registered template. -/
def Collection.init (i0 : Ix A) : Collection A := ⟨0, [], i0⟩

/-- `insert(value)`: allocate the next id, append to the store, dispatch
Add to the root index; returns the issued id alongside the new state. -/
def Collection.insert (c : Collection A) (v : A) : Option (Collection A × Id) :=
  (c.root.onUpdate (.add c.nextId v)).map fun r =>
    (⟨c.nextId + 1, c.store ++ [(c.nextId, v)], r⟩, c.nextId)

/-- `update(id, new_value)`: replace in the store (a logic error — `none`
— on an unknown id), dispatch Update carrying the captured old value. -/
def Collection.update (c : Collection A) (id : Id) (v : A) : Option (Collection A) :=
  (storeLookup c.store id).bind fun o =>
    (c.root.onUpdate (.update id o v)).map fun r =>
      ⟨c.nextId, storeReplace c.store id v, r⟩

/-- `remove(id)`: delete from the store (a logic error — `none` — on an
unknown id), dispatch Remove carrying the captured old value. -/
def Collection.remove (c : Collection A) (id : Id) : Option (Collection A) :=
  (storeLookup c.store id).bind fun o =>
    (c.root.onUpdate (.delete id o)).map fun r =>
      ⟨c.nextId, storeRemove c.store id, r⟩

/-- Modelled from the spec: `insert_at(i, v)` of the update-decomposition
property (spec 8), the reference operation that places a value back under
a given identifier and dispatches Add; it does not touch the id counter. -/
def Collection.insertAt (c : Collection A) (id : Id) (v : A) : Option (Collection A) :=
  (c.root.onUpdate (.add id v)).map fun r =>
    ⟨c.nextId, c.store ++ [(id, v)], r⟩

/-- A mutation request against the collection. -/
inductive Op (A : Type) where
  | insert (v : A)
  | update (id : Id) (v : A)
  | remove (id : Id)

/-- Apply one mutation; returns the new state and the list of issued
identifiers (one for an insert, none otherwise).  `none` poisons the whole
run (logic error or failed index assertion). -/
def applyOp (c : Collection A) : Op A → Option (Collection A × List Id)
  | .insert v => (c.insert v).map fun r => (r.1, [r.2])
  | .update id v => (c.update id v).map fun c' => (c', [])
  | .remove id => (c.remove id).map fun c' => (c', [])

/-- Run a sequence of mutations, collecting all issued identifiers in
order. -/
def runOps : List (Op A) → Collection A → Option (Collection A × List Id)
  | [], c => some (c, [])
  | op :: ops, c =>
      (applyOp c op).bind fun r =>
        (runOps ops r.1).map fun r' => (r'.1, r.2 ++ r'.2)

/-- Collection invariant: store keys are pairwise distinct, below the id
counter, and the root index is synchronized with the store contents. -/
def Inv (c : Collection A) : Prop :=
  (c.store.map Prod.fst).Nodup ∧
    (∀ id ∈ c.store.map Prod.fst, id < c.nextId) ∧
    c.root.good ↑c.store

/-- `Index.item` (`core/Index.ts` lines 11-13): build the item envelope for
an identifier held by an index via `store.get(id)` and a non-null
assertion; `none` models the assertion failing. -/
def item (σ : List (Id × A)) (id : Id) : Option (Id × A) :=
  (storeLookup σ id).map fun v => (id, v)

/-- The value payload of an update event (one entry per side). -/
def updateValues : Update A → List A
  | .add _ v => [v]
  | .update _ o n => [o, n]
  | .delete _ o => [o]

/-! ### IdMap

Modelled from the spec: `IdMap`, the utility mapping keyed by the 64-bit
value of an identifier that backs the store (its source
`core/src/util/IdMap.ts` is not in the snapshot; only its reference
property test is).  It is embedded as an association list with at most one
entry per key: `set` overwrites in place or appends, `delete` removes the
entry, and `forEach` enumerates the entries (`IdMap.entries`). -/

abbrev IdMap (V : Type) : Type := List (Id × V)

def IdMap.set : IdMap V → Id → V → IdMap V
  | [], id, v => [(id, v)]
  | q :: rest, id, v =>
      if q.1 = id then (id, v) :: rest else q :: IdMap.set rest id v

def IdMap.delete : IdMap V → Id → IdMap V
  | [], _ => []
  | q :: rest, id => if q.1 = id then rest else q :: IdMap.delete rest id

/-- The pairs `forEach` enumerates, in order. -/
def IdMap.entries (m : IdMap V) : List (Id × V) := m

/-- One call of the reference property test: `set(id, value)` or
`delete(id)`. -/
inductive MapCall (V : Type) where
  | set (id : Id) (v : V)
  | del (id : Id)

/-- Apply one call to the `IdMap`. -/
def applyMapCall (m : IdMap V) : MapCall V → IdMap V
  | .set id v => m.set id v
  | .del id => m.delete id

/-- Apply one call to the reference map keyed by the identifier's value
(the `Map<string, V>` keyed by `id.asLong.toString(16)` of the test, which
is injective on 64-bit values). -/
def applyRefCall (r : Id → Option V) : MapCall V → Id → Option V
  | .set id v => fun j => if j = id then some v else r j
  | .del id => fun j => if j = id then none else r j

/-- Run a call sequence against the `IdMap`. -/
def runIdMap (calls : List (MapCall V)) : IdMap V :=
  calls.foldl applyMapCall []

/-- Run the same call sequence against the reference map. -/
def runRef (calls : List (MapCall V)) : Id → Option V :=
  calls.foldl applyRefCall (fun _ => none)

/-! ### Helper lemmas -/

theorem getOrCreate_self_mem (ks : List Nat) (k : Nat) : k ∈ getOrCreate ks k := by
  unfold getOrCreate
  by_cases h : k ∈ ks
  · simp only [if_pos h]
    exact h
  · simp [h]

theorem mem_getOrCreate_of_mem {ks : List Nat} {j : Nat} (k : Nat) (h : j ∈ ks) :
    j ∈ getOrCreate ks k := by
  unfold getOrCreate
  by_cases hk : k ∈ ks <;> simp [hk, h]

theorem mem_list_multiset_sum {l : List (Multiset α)} {a : α} (h : a ∈ l.sum) :
    ∃ m ∈ l, a ∈ m := by
  induction l with
  | nil => simp at h
  | cons m rest ih =>
      rw [List.sum_cons, Multiset.mem_add] at h
      rcases h with h | h
      · exact ⟨m, by simp, h⟩
      · obtain ⟨m', hm', ha⟩ := ih h
        exact ⟨m', by simp [hm'], ha⟩

theorem storeLookup_mem {σ : List (Id × A)} {id : Id} {o : A}
    (h : storeLookup σ id = some o) : (id, o) ∈ σ := by
  induction σ with
  | nil => simp [storeLookup] at h
  | cons q rest ih =>
      by_cases hq : q.1 = id
      · rw [storeLookup, if_pos hq] at h
        have : q = (id, o) := by
          rcases q with ⟨a, b⟩
          simp at hq h ⊢
          exact ⟨hq, h⟩
        rw [this]
        exact List.mem_cons_self _ _
      · rw [storeLookup, if_neg hq] at h
        exact List.mem_cons_of_mem _ (ih h)

theorem storeLookup_isSome_of_mem {σ : List (Id × A)} {id : Id}
    (h : id ∈ σ.map Prod.fst) : (storeLookup σ id).isSome := by
  induction σ with
  | nil => simp at h
  | cons q rest ih =>
      by_cases hq : q.1 = id
      · rw [storeLookup, if_pos hq]
        rfl
      · rw [storeLookup, if_neg hq]
        rw [List.map_cons] at h
        rcases List.mem_cons.mp h with h' | h'
        · exact absurd h'.symm hq
        · exact ih h'

theorem storeRemove_of_not_mem {σ : List (Id × A)} {id : Id}
    (h : id ∉ σ.map Prod.fst) : storeRemove σ id = σ := by
  induction σ with
  | nil => rfl
  | cons q rest ih =>
      rw [List.map_cons] at h
      have hq : ¬(q.1 = id) := fun hc => h (by simp [hc])
      rw [storeRemove, if_neg hq, ih (fun hm => h (List.mem_cons_of_mem _ hm))]

theorem storeReplace_of_not_mem {σ : List (Id × A)} {id : Id} {v : A}
    (h : id ∉ σ.map Prod.fst) : storeReplace σ id v = σ := by
  induction σ with
  | nil => rfl
  | cons q rest ih =>
      rw [List.map_cons] at h
      have hq : ¬(q.1 = id) := fun hc => h (by simp [hc])
      rw [storeReplace, if_neg hq, ih (fun hm => h (List.mem_cons_of_mem _ hm))]

theorem storeRemove_map_fst_sublist (σ : List (Id × A)) (id : Id) :
    ((storeRemove σ id).map Prod.fst).Sublist (σ.map Prod.fst) := by
  induction σ with
  | nil => simp [storeRemove]
  | cons q rest ih =>
      by_cases hq : q.1 = id
      · rw [storeRemove, if_pos hq, List.map_cons]
        exact ih.cons _
      · rw [storeRemove, if_neg hq, List.map_cons, List.map_cons]
        exact ih.cons₂ _

theorem storeReplace_map_fst (σ : List (Id × A)) (id : Id) (v : A) :
    (storeReplace σ id v).map Prod.fst = σ.map Prod.fst := by
  induction σ with
  | nil => rfl
  | cons q rest ih =>
      by_cases hq : q.1 = id
      · rw [storeReplace, if_pos hq, List.map_cons, List.map_cons, ih, hq]
      · rw [storeReplace, if_neg hq, List.map_cons, List.map_cons, ih]

theorem store_cons_decomp {σ : List (Id × A)} {id : Id} {o : A}
    (hnd : (σ.map Prod.fst).Nodup) (h : storeLookup σ id = some o) :
    (↑σ : Multiset (Id × A)) = (id, o) ::ₘ ↑(storeRemove σ id) := by
  induction σ with
  | nil => simp [storeLookup] at h
  | cons q rest ih =>
      rw [List.map_cons, List.nodup_cons] at hnd
      by_cases hq : q.1 = id
      · rw [storeLookup, if_pos hq] at h
        have hq' : q = (id, o) := by
          rcases q with ⟨a, b⟩
          simp at hq h ⊢
          exact ⟨hq, h⟩
        have hnr : storeRemove rest id = rest :=
          storeRemove_of_not_mem (fun hm => hnd.1 (by rwa [← hq] at hm))
        rw [hq', storeRemove, if_pos (show (id, o).1 = id from rfl), hnr]
        rfl
      · rw [storeLookup, if_neg hq] at h
        have hrec := ih hnd.2 h
        rw [storeRemove, if_neg hq]
        calc (↑(q :: rest) : Multiset (Id × A)) = q ::ₘ ↑rest := rfl
          _ = q ::ₘ ((id, o) ::ₘ ↑(storeRemove rest id)) := by rw [hrec]
          _ = (id, o) ::ₘ (q ::ₘ ↑(storeRemove rest id)) := Multiset.cons_swap _ _ _
          _ = (id, o) ::ₘ ↑(q :: storeRemove rest id) := rfl

theorem storeReplace_decomp {σ : List (Id × A)} {id : Id} {o : A} (v : A)
    (hnd : (σ.map Prod.fst).Nodup) (h : storeLookup σ id = some o) :
    (↑(storeReplace σ id v) : Multiset (Id × A)) = (id, v) ::ₘ ↑(storeRemove σ id) := by
  induction σ with
  | nil => simp [storeLookup] at h
  | cons q rest ih =>
      rw [List.map_cons, List.nodup_cons] at hnd
      by_cases hq : q.1 = id
      · rw [storeLookup, if_pos hq] at h
        have hnm : id ∉ rest.map Prod.fst := fun hm => hnd.1 (by rwa [← hq] at hm)
        rw [storeReplace, if_pos hq, storeRemove, if_pos hq,
          storeRemove_of_not_mem hnm, storeReplace_of_not_mem hnm]
        rfl
      · rw [storeLookup, if_neg hq] at h
        have hrec := ih hnd.2 h
        rw [storeReplace, if_neg hq, storeRemove, if_neg hq]
        calc (↑(q :: storeReplace rest id v) : Multiset (Id × A))
            = q ::ₘ ↑(storeReplace rest id v) := rfl
          _ = q ::ₘ ((id, v) ::ₘ ↑(storeRemove rest id)) := by rw [hrec]
          _ = (id, v) ::ₘ (q ::ₘ ↑(storeRemove rest id)) := Multiset.cons_swap _ _ _
          _ = (id, v) ::ₘ ↑(q :: storeRemove rest id) := rfl

/-! ### IdMap refinement lemmas -/

theorem IdMap.mem_set {V : Type} {m : IdMap V} {id : Id} {v : V}
    (hnd : (m.map Prod.fst).Nodup) (j : Id) (w : V) :
    (j, w) ∈ m.set id v ↔ (j = id ∧ w = v) ∨ ((j, w) ∈ m ∧ j ≠ id) := by
  induction m with
  | nil =>
      rw [IdMap.set]
      simp [Prod.ext_iff]
  | cons q rest ih =>
      rw [List.map_cons, List.nodup_cons] at hnd
      by_cases hq : q.1 = id
      · rw [IdMap.set, if_pos hq]
        constructor
        · intro h
          rcases List.mem_cons.mp h with h | h
          · exact Or.inl (by simpa [Prod.ext_iff] using h)
          · refine Or.inr ⟨List.mem_cons_of_mem _ h, fun hj => ?_⟩
            exact hnd.1 (by
              rw [hq]
              rw [hj] at h
              exact List.mem_map.mpr ⟨(id, w), h, rfl⟩)
        · rintro (⟨rfl, rfl⟩ | ⟨hmem, hj⟩)
          · exact List.mem_cons_self _ _
          · rcases List.mem_cons.mp hmem with rfl | h
            · exact absurd hq hj
            · exact List.mem_cons_of_mem _ h
      · rw [IdMap.set, if_neg hq]
        constructor
        · intro h
          rcases List.mem_cons.mp h with rfl | h
          · exact Or.inr ⟨List.mem_cons_self _ _, hq⟩
          · rcases (ih hnd.2).mp h with h | ⟨h1, h2⟩
            · exact Or.inl h
            · exact Or.inr ⟨List.mem_cons_of_mem _ h1, h2⟩
        · rintro (⟨rfl, rfl⟩ | ⟨hmem, hj⟩)
          · exact List.mem_cons_of_mem _ ((ih hnd.2).mpr (Or.inl ⟨rfl, rfl⟩))
          · rcases List.mem_cons.mp hmem with rfl | h
            · exact List.mem_cons_self _ _
            · exact List.mem_cons_of_mem _ ((ih hnd.2).mpr (Or.inr ⟨h, hj⟩))

theorem IdMap.mem_map_fst_set {V : Type} {m : IdMap V} {id : Id} {v : V}
    {j : Id} (h : j ∈ (m.set id v).map Prod.fst) :
    j = id ∨ j ∈ m.map Prod.fst := by
  induction m with
  | nil =>
      rw [IdMap.set] at h
      simp at h
      exact Or.inl h
  | cons q rest ih =>
      by_cases hq : q.1 = id
      · rw [IdMap.set, if_pos hq, List.map_cons] at h
        rcases List.mem_cons.mp h with rfl | h
        · exact Or.inl rfl
        · exact Or.inr (by
            rw [List.map_cons]
            exact List.mem_cons_of_mem _ h)
      · rw [IdMap.set, if_neg hq, List.map_cons] at h
        rcases List.mem_cons.mp h with rfl | h
        · exact Or.inr (by
            rw [List.map_cons]
            exact List.mem_cons_self _ _)
        · rcases ih h with h | h
          · exact Or.inl h
          · exact Or.inr (by
              rw [List.map_cons]
              exact List.mem_cons_of_mem _ h)

theorem IdMap.nodup_set {V : Type} {m : IdMap V} (id : Id) (v : V)
    (hnd : (m.map Prod.fst).Nodup) : ((m.set id v).map Prod.fst).Nodup := by
  induction m with
  | nil =>
      rw [IdMap.set]
      simp
  | cons q rest ih =>
      rw [List.map_cons, List.nodup_cons] at hnd
      by_cases hq : q.1 = id
      · rw [IdMap.set, if_pos hq, List.map_cons, List.nodup_cons]
        exact ⟨fun h => hnd.1 (by rwa [hq]), hnd.2⟩
      · rw [IdMap.set, if_neg hq, List.map_cons, List.nodup_cons]
        refine ⟨fun h => ?_, ih hnd.2⟩
        rcases IdMap.mem_map_fst_set h with h | h
        · exact hq h
        · exact hnd.1 h

theorem IdMap.mem_delete {V : Type} {m : IdMap V} {id : Id}
    (hnd : (m.map Prod.fst).Nodup) (j : Id) (w : V) :
    (j, w) ∈ m.delete id ↔ (j, w) ∈ m ∧ j ≠ id := by
  induction m with
  | nil =>
      rw [IdMap.delete]
      simp
  | cons q rest ih =>
      rw [List.map_cons, List.nodup_cons] at hnd
      by_cases hq : q.1 = id
      · rw [IdMap.delete, if_pos hq]
        constructor
        · intro h
          refine ⟨List.mem_cons_of_mem _ h, fun hj => ?_⟩
          exact hnd.1 (by
            rw [hq]
            rw [hj] at h
            exact List.mem_map.mpr ⟨(id, w), h, rfl⟩)
        · rintro ⟨hmem, hj⟩
          rcases List.mem_cons.mp hmem with rfl | h
          · exact absurd hq hj
          · exact h
      · rw [IdMap.delete, if_neg hq]
        constructor
        · intro h
          rcases List.mem_cons.mp h with rfl | h
          · exact ⟨List.mem_cons_self _ _, hq⟩
          · obtain ⟨h1, h2⟩ := (ih hnd.2).mp h
            exact ⟨List.mem_cons_of_mem _ h1, h2⟩
        · rintro ⟨hmem, hj⟩
          rcases List.mem_cons.mp hmem with rfl | h
          · exact List.mem_cons_self _ _
          · exact List.mem_cons_of_mem _ ((ih hnd.2).mpr ⟨h, hj⟩)

theorem IdMap.delete_map_fst_sublist {V : Type} (m : IdMap V) (id : Id) :
    ((m.delete id).map Prod.fst).Sublist (m.map Prod.fst) := by
  induction m with
  | nil => rw [IdMap.delete]
  | cons q rest ih =>
      by_cases hq : q.1 = id
      · rw [IdMap.delete, if_pos hq, List.map_cons]
        exact List.sublist_cons_self ..
      · rw [IdMap.delete, if_neg hq, List.map_cons, List.map_cons]
        exact ih.cons₂ _

theorem IdMap.run_rel {V : Type} (calls : List (MapCall V)) :
    ∀ (m : IdMap V) (r : Id → Option V),
      (m.map Prod.fst).Nodup →
      (∀ id v, ((id, v) ∈ m ↔ r id = some v)) →
      ((calls.foldl applyMapCall m).map Prod.fst).Nodup ∧
        ∀ id v, ((id, v) ∈ calls.foldl applyMapCall m ↔
          calls.foldl applyRefCall r id = some v) := by
  induction calls with
  | nil => exact fun m r hnd hrel => ⟨hnd, hrel⟩
  | cons call rest ih =>
      intro m r hnd hrel
      rw [List.foldl_cons, List.foldl_cons]
      cases call with
      | set id v =>
          refine ih _ _ (IdMap.nodup_set id v hnd) fun j w => ?_
          show (j, w) ∈ m.set id v ↔ (if j = id then some v else r j) = some w
          rw [IdMap.mem_set hnd j w]
          by_cases hj : j = id
          · subst hj
            simp [eq_comm]
          · simp only [if_neg hj]
            rw [← hrel j w]
            simp [hj]
      | del id =>
          refine ih _ _ ((IdMap.delete_map_fst_sublist m id).nodup hnd) fun j w => ?_
          show (j, w) ∈ m.delete id ↔ (if j = id then none else r j) = some w
          rw [IdMap.mem_delete hnd j w]
          by_cases hj : j = id
          · subst hj
            simp
          · simp only [if_neg hj]
            rw [← hrel j w]
            simp [hj]

/-! ### Invariant preservation along the index tree -/

theorem Ix.add_total {A : Type} (i : Ix A) :
    ∀ (id : Id) (v : A), ∃ i', i.onUpdate (.add id v) = some i' := by
  induction i with
  | keys ids => exact fun id v => ⟨_, rfl⟩
  | focus f inner ih =>
      intro id v
      obtain ⟨j, hj⟩ := ih id (f v)
      exact ⟨.focus f j, by simp [Ix.onUpdate, mapUpdate, hj]⟩
  | filtered p inner ih =>
      intro id v
      by_cases hp : p v = true
      · obtain ⟨j, hj⟩ := ih id v
        exact ⟨.filtered p j, by simp [Ix.onUpdate, hp, hj]⟩
      · exact ⟨.filtered p inner, by simp [Ix.onUpdate, hp]⟩
  | grouped g ks inners ih =>
      intro id v
      obtain ⟨j, hj⟩ := ih (g v) id v
      exact ⟨.grouped g (getOrCreate ks (g v)) (Function.update inners (g v) j),
        by simp [Ix.onUpdate, hj]⟩
  | zip l r ihl ihr =>
      intro id v
      obtain ⟨jl, hl⟩ := ihl id v
      obtain ⟨jr, hr⟩ := ihr id v
      exact ⟨.zip jl jr, by simp [Ix.onUpdate, hl, hr]⟩

theorem Ix.add_good {A : Type} (i : Ix A) :
    ∀ (σ : Multiset (Id × A)) (id : Id) (v : A) (i' : Ix A),
      i.good σ → i.onUpdate (.add id v) = some i' → i'.good ((id, v) ::ₘ σ) := by
  induction i with
  | keys ids =>
      intro σ id v i' hg h
      rw [Ix.onUpdate] at h
      cases h
      rw [Ix.good] at hg ⊢
      rw [hg, Multiset.map_cons]
  | focus f inner ih =>
      intro σ id v i' hg h
      rw [Ix.onUpdate] at h
      rcases Option.map_eq_some'.mp h with ⟨j, hj, rfl⟩
      rw [Ix.good] at hg ⊢
      have := ih _ id (f v) j hg hj
      rwa [Multiset.map_cons]
  | filtered p inner ih =>
      intro σ id v i' hg h
      rw [Ix.onUpdate] at h
      rw [Ix.good] at hg
      by_cases hp : p v = true
      · rw [if_pos hp] at h
        rcases Option.map_eq_some'.mp h with ⟨j, hj, rfl⟩
        rw [Ix.good, Multiset.filter_cons_of_pos _ (by simpa using hp)]
        exact ih _ id v j hg hj
      · rw [if_neg hp] at h
        cases h
        rw [Ix.good, Multiset.filter_cons_of_neg _ (by simpa using hp)]
        exact hg
  | grouped g ks inners ih =>
      intro σ id v i' hg h
      rw [Ix.onUpdate] at h
      rcases Option.map_eq_some'.mp h with ⟨j, hj, rfl⟩
      rw [Ix.good] at hg ⊢
      refine ⟨?_, ?_⟩
      · intro k
        by_cases hk : g v = k
        · subst hk
          rw [Function.update_same,
            Multiset.filter_cons_of_pos _ (by simp)]
          exact ih (g v) _ id v j (hg.1 (g v)) hj
        · rw [Function.update_noteq (Ne.symm hk),
            Multiset.filter_cons_of_neg _ (by simpa using hk)]
          exact hg.1 k
      · intro q hq
        rcases Multiset.mem_cons.mp hq with rfl | hq'
        · exact getOrCreate_self_mem _ _
        · exact mem_getOrCreate_of_mem _ (hg.2 q hq')
  | zip l r ihl ihr =>
      intro σ id v i' hg h
      rw [Ix.onUpdate] at h
      rcases Option.bind_eq_some.mp h with ⟨jl, hl, h2⟩
      rcases Option.map_eq_some'.mp h2 with ⟨jr, hr, rfl⟩
      rw [Ix.good] at hg ⊢
      exact ⟨ihl _ id v jl hg.1 hl, ihr _ id v jr hg.2 hr⟩

theorem Ix.delete_good {A : Type} (i : Ix A) :
    ∀ (σ : Multiset (Id × A)) (id : Id) (o : A),
      i.good ((id, o) ::ₘ σ) →
      ∃ i', i.onUpdate (.delete id o) = some i' ∧ i'.good σ := by
  induction i with
  | keys ids =>
      intro σ id o hg
      rw [Ix.good] at hg
      refine ⟨.keys (ids.erase id), rfl, ?_⟩
      rw [Ix.good, hg, Multiset.map_cons, Multiset.erase_cons_head]
  | focus f inner ih =>
      intro σ id o hg
      rw [Ix.good, Multiset.map_cons] at hg
      obtain ⟨j, hj, hgj⟩ := ih _ id (f o) hg
      exact ⟨.focus f j, by simp [Ix.onUpdate, mapUpdate, hj], hgj⟩
  | filtered p inner ih =>
      intro σ id o hg
      rw [Ix.good] at hg
      by_cases hp : p o = true
      · rw [Multiset.filter_cons_of_pos _ (by simpa using hp)] at hg
        obtain ⟨j, hj, hgj⟩ := ih _ id o hg
        exact ⟨.filtered p j, by simp [Ix.onUpdate, hp, hj], hgj⟩
      · rw [Multiset.filter_cons_of_neg _ (by simpa using hp)] at hg
        exact ⟨.filtered p inner, by simp [Ix.onUpdate, hp], hg⟩
  | grouped g ks inners ih =>
      intro σ id o hg
      rw [Ix.good] at hg
      have hmem : g o ∈ ks := hg.2 (id, o) (Multiset.mem_cons_self _ _)
      have hfo := hg.1 (g o)
      rw [Multiset.filter_cons_of_pos _ (by simp)] at hfo
      obtain ⟨j, hj, hgj⟩ := ih (g o) _ id o hfo
      refine ⟨.grouped g ks (Function.update inners (g o) j),
        by simp [Ix.onUpdate, hmem, hj], ?_⟩
      rw [Ix.good]
      refine ⟨?_, ?_⟩
      · intro k
        by_cases hk : g o = k
        · subst hk
          rw [Function.update_same]
          exact hgj
        · rw [Function.update_noteq (Ne.symm hk)]
          have := hg.1 k
          rwa [Multiset.filter_cons_of_neg _ (by simpa using hk)] at this
      · exact fun q hq => hg.2 q (Multiset.mem_cons_of_mem hq)
  | zip l r ihl ihr =>
      intro σ id o hg
      rw [Ix.good] at hg
      obtain ⟨jl, hl, hgl⟩ := ihl _ id o hg.1
      obtain ⟨jr, hr, hgr⟩ := ihr _ id o hg.2
      exact ⟨.zip jl jr, by simp [Ix.onUpdate, hl, hr], Ix.good.eq_5 .. ▸ ⟨hgl, hgr⟩⟩

theorem Ix.update_eq_delete_add {A : Type} (i : Ix A) :
    ∀ (σ : Multiset (Id × A)) (id : Id) (o n : A),
      i.good ((id, o) ::ₘ σ) →
      i.onUpdate (.update id o n) =
        (i.onUpdate (.delete id o)).bind fun i1 => i1.onUpdate (.add id n) := by
  induction i with
  | keys ids =>
      intro σ id o n hg
      rw [Ix.good] at hg
      simp only [Ix.onUpdate, Option.some_bind]
      rw [hg, Multiset.map_cons, Multiset.erase_cons_head]
  | focus f inner ih =>
      intro σ id o n hg
      rw [Ix.good, Multiset.map_cons] at hg
      have hrec := ih _ id (f o) (f n) hg
      simp only [Ix.onUpdate, mapUpdate]
      rw [hrec]
      cases hd : inner.onUpdate (.delete id (f o)) with
      | none => simp
      | some j => simp [Ix.onUpdate, mapUpdate]
  | filtered p inner ih =>
      intro σ id o n hg
      rw [Ix.good] at hg
      by_cases hpo : p o = true <;> by_cases hpn : p n = true
      · rw [Multiset.filter_cons_of_pos _ (by simpa using hpo)] at hg
        have hrec := ih _ id o n hg
        simp only [Ix.onUpdate, hpo, hpn]
        rw [hrec]
        cases hd : inner.onUpdate (.delete id o) with
        | none => simp
        | some j => simp [Ix.onUpdate, hpn]
      · simp only [Ix.onUpdate, hpo, hpn]
        cases hd : inner.onUpdate (.delete id o) with
        | none => simp
        | some j => simp [Ix.onUpdate, hpn]
      · simp only [Ix.onUpdate, hpo, hpn]
        simp [Ix.onUpdate, hpn]
      · simp only [Ix.onUpdate, hpo, hpn]
        simp [Ix.onUpdate, hpn]
  | grouped g ks inners ih =>
      intro σ id o n hg
      rw [Ix.good] at hg
      by_cases hgn : g o = g n
      · by_cases hmem : g o ∈ ks
        · have hfo := hg.1 (g o)
          rw [Multiset.filter_cons_of_pos _ (by simp)] at hfo
          have hrec := ih (g o) _ id o n hfo
          simp only [Ix.onUpdate, hgn, if_pos, hmem, if_true]
          rw [← hgn, hrec]
          cases hd : (inners (g o)).onUpdate (.delete id o) with
          | none => simp [hmem]
          | some j =>
              simp only [Option.some_bind, Option.map_some', hmem, if_true,
                Option.some_bind]
              rw [Ix.onUpdate]
              rw [← hgn, Function.update_same,
                show getOrCreate ks (g o) = ks from if_pos hmem]
              cases ha : j.onUpdate (.add id n) with
              | none => simp
              | some j2 =>
                  simp only [Option.map_some', Option.some_bind]
                  rw [Function.update_idem]
        · have hmem' : g n ∉ ks := fun hc => hmem (by rwa [hgn])
          simp only [Ix.onUpdate, hgn, if_neg hmem']
          simp
      · by_cases hmem : g o ∈ ks
        · simp only [Ix.onUpdate, hgn, if_neg, hmem, if_true]
          cases hd : (inners (g o)).onUpdate (.delete id o) with
          | none => simp [hmem, hd]
          | some j =>
              simp only [hd, Option.some_bind, Option.map_some', hmem, if_true]
              rw [Ix.onUpdate]
              rw [Function.update_noteq (fun hc => hgn hc.symm)]
              cases ha : (inners (g n)).onUpdate (.add id n) with
              | none => simp [ha]
              | some j2 => simp [ha, Function.update_comm (fun hc => hgn hc)]
        · simp [Ix.onUpdate, hgn, hmem]
  | zip l r ihl ihr =>
      intro σ id o n hg
      rw [Ix.good] at hg
      have hl := ihl _ id o n hg.1
      have hr := ihr _ id o n hg.2
      simp only [Ix.onUpdate]
      rw [hl, hr]
      cases hdl : l.onUpdate (.delete id o) with
      | none => simp
      | some l1 =>
          cases hdr : r.onUpdate (.delete id o) with
          | none => simp
          | some r1 =>
              simp only [Option.some_bind, Option.map_some']
              simp [Ix.onUpdate]

theorem Ix.idsOf_mem_store {A : Type} (i : Ix A) :
    ∀ (σ : Multiset (Id × A)), i.good σ →
      ∀ id ∈ i.idsOf, id ∈ σ.map Prod.fst := by
  induction i with
  | keys ids =>
      intro σ hg id hid
      rw [Ix.good] at hg
      rw [Ix.idsOf] at hid
      rwa [hg] at hid
  | focus f inner ih =>
      intro σ hg id hid
      rw [Ix.good] at hg
      rw [Ix.idsOf] at hid
      have := ih _ hg id hid
      rwa [Multiset.map_map] at this
  | filtered p inner ih =>
      intro σ hg id hid
      rw [Ix.good] at hg
      rw [Ix.idsOf] at hid
      have := ih _ hg id hid
      rcases Multiset.mem_map.mp this with ⟨q, hq, rfl⟩
      exact Multiset.mem_map_of_mem _ (Multiset.mem_of_mem_filter hq)
  | grouped g ks inners ih =>
      intro σ hg id hid
      rw [Ix.good] at hg
      rw [Ix.idsOf] at hid
      obtain ⟨m, hm, hidm⟩ := mem_list_multiset_sum hid
      rcases List.mem_map.mp hm with ⟨k, _, rfl⟩
      have := ih k _ (hg.1 k) id hidm
      rcases Multiset.mem_map.mp this with ⟨q, hq, rfl⟩
      exact Multiset.mem_map_of_mem _ (Multiset.mem_of_mem_filter hq)
  | zip l r ihl ihr =>
      intro σ hg id hid
      rw [Ix.good] at hg
      rw [Ix.idsOf] at hid
      rcases Multiset.mem_add.mp hid with h | h
      · exact ihl _ hg.1 id h
      · exact ihr _ hg.2 id h

theorem Ix.plain_complete {A : Type} (i : Ix A) :
    ∀ (σ : Multiset (Id × A)), i.plain = true → i.good σ →
      ∀ m ∈ i.leafIdMultisets, m = σ.map Prod.fst := by
  induction i with
  | keys ids =>
      intro σ _ hg m hm
      rw [Ix.good] at hg
      rw [Ix.leafIdMultisets] at hm
      rcases List.mem_singleton.mp hm with rfl
      exact hg
  | focus f inner ih =>
      intro σ hp hg m hm
      rw [Ix.plain] at hp
      rw [Ix.good] at hg
      rw [Ix.leafIdMultisets] at hm
      have := ih _ hp hg m hm
      rwa [Multiset.map_map] at this
  | filtered p inner ih =>
      intro σ hp
      rw [Ix.plain] at hp
      exact absurd hp (by simp)
  | grouped g ks inners ih =>
      intro σ hp
      rw [Ix.plain] at hp
      exact absurd hp (by simp)
  | zip l r ihl ihr =>
      intro σ hp hg m hm
      rw [Ix.plain, Bool.and_eq_true] at hp
      rw [Ix.good] at hg
      rw [Ix.leafIdMultisets] at hm
      rcases List.mem_append.mp hm with h | h
      · exact ihl _ hp.1 hg.1 m h
      · exact ihr _ hp.2 hg.2 m h

/-! ### Collection-level invariant -/

theorem coe_append_singleton (σ : List (Id × A)) (q : Id × A) :
    (↑(σ ++ [q]) : Multiset (Id × A)) = q ::ₘ ↑σ :=
  Multiset.coe_eq_coe.mpr (List.perm_append_singleton q σ)

theorem applyOp_inv {A : Type} {c c' : Collection A} {op : Op A} {is : List Id}
    (hInv : Inv c) (h : applyOp c op = some (c', is)) :
    Inv c' ∧ c.nextId ≤ c'.nextId ∧
      is = List.range' c.nextId (c'.nextId - c.nextId) := by
  obtain ⟨hnd, hbd, hgood⟩ := hInv
  cases op with
  | insert v =>
      rw [applyOp, Collection.insert] at h
      cases hu : c.root.onUpdate (.add c.nextId v) with
      | none => rw [hu] at h; simp at h
      | some r =>
          rw [hu] at h
          simp only [Option.map_some', Option.some_inj] at h
          obtain ⟨rfl, rfl⟩ := Prod.mk.injEq .. ▸ Prod.ext_iff.mp h.symm
          refine ⟨⟨?_, ?_, ?_⟩, ?_, ?_⟩
          · show ((c.store ++ [(c.nextId, v)]).map Prod.fst).Nodup
            rw [List.map_append, List.map_singleton]
            rw [(List.perm_append_singleton _ _).nodup_iff, List.nodup_cons]
            exact ⟨fun hm => lt_irrefl _ (hbd _ (by simpa using hm)), hnd⟩
          · intro id hm
            rw [List.map_append, List.mem_append] at hm
            rcases hm with hm | hm
            · exact lt_trans (hbd id hm) (Nat.lt_succ_self _)
            · simp at hm
              rw [hm]
              exact Nat.lt_succ_self _
          · show r.good ↑(c.store ++ [(c.nextId, v)])
            rw [coe_append_singleton]
            exact Ix.add_good _ _ _ _ _ hgood hu
          · exact Nat.le_succ _
          · show [c.nextId] = List.range' c.nextId (c.nextId + 1 - c.nextId)
            rw [Nat.add_sub_cancel_left]
            rfl
  | update id v =>
      rw [applyOp, Collection.update] at h
      cases hlk : storeLookup c.store id with
      | none => rw [hlk] at h; simp at h
      | some o =>
          rw [hlk] at h
          simp only [Option.some_bind] at h
          cases hu : c.root.onUpdate (.update id o v) with
          | none => rw [hu] at h; simp at h
          | some r =>
              rw [hu] at h
              simp only [Option.map_some', Option.some_inj] at h
              obtain ⟨rfl, rfl⟩ := Prod.mk.injEq .. ▸ Prod.ext_iff.mp h.symm
              have hσ := store_cons_decomp hnd hlk
              have hgood' : c.root.good ((id, o) ::ₘ ↑(storeRemove c.store id)) := by
                rwa [hσ] at hgood
              have hdec := Ix.update_eq_delete_add c.root _ id o v hgood'
              rw [hdec] at hu
              rcases Option.bind_eq_some.mp hu with ⟨i1, hdel, hadd⟩
              obtain ⟨i1', hdel', hgood1⟩ := Ix.delete_good c.root _ id o hgood'
              rw [hdel] at hdel'
              cases hdel'
              have hgood2 := Ix.add_good i1 _ id v r hgood1 hadd
              refine ⟨⟨?_, ?_, ?_⟩, le_refl _, ?_⟩
              · show ((storeReplace c.store id v).map Prod.fst).Nodup
                rwa [storeReplace_map_fst]
              · intro id' hm
                rw [storeReplace_map_fst] at hm
                exact hbd id' hm
              · show r.good ↑(storeReplace c.store id v)
                rwa [storeReplace_decomp v hnd hlk]
              · simp
  | remove id =>
      rw [applyOp, Collection.remove] at h
      cases hlk : storeLookup c.store id with
      | none => rw [hlk] at h; simp at h
      | some o =>
          rw [hlk] at h
          simp only [Option.some_bind] at h
          cases hu : c.root.onUpdate (.delete id o) with
          | none => rw [hu] at h; simp at h
          | some r =>
              rw [hu] at h
              simp only [Option.map_some', Option.some_inj] at h
              obtain ⟨rfl, rfl⟩ := Prod.mk.injEq .. ▸ Prod.ext_iff.mp h.symm
              have hσ := store_cons_decomp hnd hlk
              have hgood' : c.root.good ((id, o) ::ₘ ↑(storeRemove c.store id)) := by
                rwa [hσ] at hgood
              obtain ⟨i1, hdel, hgood1⟩ := Ix.delete_good c.root _ id o hgood'
              rw [hu] at hdel
              cases hdel
              refine ⟨⟨?_, ?_, ?_⟩, le_refl _, ?_⟩
              · exact (storeRemove_map_fst_sublist c.store id).nodup hnd
              · exact fun id' hm =>
                  hbd id' ((storeRemove_map_fst_sublist c.store id).mem hm)
              · exact hgood1
              · simp

theorem runOps_inv {A : Type} (ops : List (Op A)) :
    ∀ (c c' : Collection A) (is : List Id), Inv c →
      runOps ops c = some (c', is) →
      Inv c' ∧ c.nextId ≤ c'.nextId ∧
        is = List.range' c.nextId (c'.nextId - c.nextId) := by
  induction ops with
  | nil =>
      intro c c' is hInv h
      rw [runOps] at h
      simp only [Option.some_inj] at h
      obtain ⟨rfl, rfl⟩ := Prod.mk.injEq .. ▸ Prod.ext_iff.mp h.symm
      exact ⟨hInv, le_refl _, by simp⟩
  | cons op ops ih =>
      intro c c' is hInv h
      rw [runOps] at h
      rcases Option.bind_eq_some.mp h with ⟨r1, h1, h2⟩
      rcases Option.map_eq_some'.mp h2 with ⟨r2, h3, h4⟩
      have hc : r2.1 = c' := congrArg Prod.fst h4
      have hi : r1.2 ++ r2.2 = is := congrArg Prod.snd h4
      subst hc
      subst hi
      obtain ⟨hInv1, hle1, his1⟩ := applyOp_inv hInv h1
      obtain ⟨hInv2, hle2, his2⟩ := ih _ _ _ hInv1 h3
      refine ⟨hInv2, le_trans hle1 hle2, ?_⟩
      rw [his1, his2]
      have harith : r1.1.nextId = c.nextId + (r1.1.nextId - c.nextId) :=
        (Nat.add_sub_cancel' hle1).symm
      calc List.range' c.nextId (r1.1.nextId - c.nextId) ++
          List.range' r1.1.nextId (r2.1.nextId - r1.1.nextId)
          = List.range' c.nextId (r1.1.nextId - c.nextId) ++
            List.range' (c.nextId + (r1.1.nextId - c.nextId))
              (r2.1.nextId - r1.1.nextId) := by
              rw [← harith]
        _ = List.range' c.nextId
              ((r2.1.nextId - r1.1.nextId) + (r1.1.nextId - c.nextId)) :=
              List.range'_append_1 ..
        _ = List.range' c.nextId (r2.1.nextId - c.nextId) := by
              rw [tsub_add_tsub_cancel hle2 hle1]

theorem runOps_append {A : Type} (l1 l2 : List (Op A)) :
    ∀ (c : Collection A),
      runOps (l1 ++ l2) c =
        (runOps l1 c).bind fun r =>
          (runOps l2 r.1).map fun r' => (r'.1, r.2 ++ r'.2) := by
  induction l1 with
  | nil =>
      intro c
      rw [List.nil_append, runOps]
      cases hr : runOps l2 c with
      | none => simp [hr]
      | some r => simp [hr]
  | cons op ops ih =>
      intro c
      rw [List.cons_append, runOps, runOps]
      cases h1 : applyOp c op with
      | none => simp
      | some r1 =>
          simp only [Option.some_bind]
          rw [ih r1.1]
          cases h2 : runOps ops r1.1 with
          | none => simp
          | some r2 =>
              simp only [Option.some_bind]
              cases h3 : runOps l2 r2.1 with
              | none => simp [h3]
              | some r3 => simp [h3]

/-! ### Claim theorems -/

/-- C2: every update event delivered to a premap/focused index
`focus(f, inner)` is forwarded to `inner` through `mapUpdate f`: an Add
with value `v` is forwarded as an Add carrying `f(v)`, a Remove with old
value `o` carries `f(o)`, an Update with old `o` and new `n` carries
`(f(o), f(n))`, and `f` is applied exactly once per side per event (the
per-side application count of the annotating projection equals the side
arity of the event). -/
theorem focused_forwards_mapped_events {In B : Type} {S Q : Type}
    (f : In → B) (inner : IdxImpl B S Q) (s : S) (u : Update In)
    (id : Id) (v o n : In) :
    (focus f inner).onUpdate s u = inner.onUpdate s (mapUpdate f u) ∧
    mapUpdate f (.add id v) = .add id (f v) ∧
    mapUpdate f (.delete id o) = .delete id (f o) ∧
    mapUpdate f (.update id o n) = .update id (f o) (f n) ∧
    sideCount (mapUpdate (fun a : In => (a, 1)) u) = sideArity u :=
  ⟨rfl, rfl, rfl, rfl, by cases u <;> rfl⟩

/-- C10: the query handle of a focused index produced by
`focus(f, inner)` is the inner index's own query handle
(`query: IndexQueries<Ix> = this.inner.query`), so every query on the
focused index returns exactly what the same query on `inner` returns;
focusing only transforms incoming update events. -/
theorem focused_shares_inner_query_handle {In B : Type} {S Q : Type}
    (f : In → B) (inner : IdxImpl B S Q) :
    (focus f inner).queryOf = inner.queryOf ∧
    (∀ s : S, (focus f inner).queryOf s = inner.queryOf s) ∧
    (∀ (s : S) (u : Update In),
      (focus f inner).onUpdate s u = inner.onUpdate s (mapUpdate f u)) :=
  ⟨rfl, fun _ => rfl, fun _ _ => rfl⟩

/-- C7: the observer operation is total over update events: every
well-typed event is one of exactly the three variants Add, Update and
Delete, and the `if`/`else if` dispatch of `GroupedIndex._onUpdate`
selects the branch of the event's tag for every event — the
`unreachable` fall-through (modelled by `none`) is never taken. -/
theorem observer_dispatch_total {A : Type} (u : Update A) :
    (u.type = UpdateType.ADD ∨ u.type = UpdateType.UPDATE ∨
      u.type = UpdateType.DELETE) ∧
    dispatchCase u = some u.type := by
  cases u <;> simp [Update.type, dispatchCase]

/-- C3: a grouped index receiving an Update whose old and new values map
to different groups forwards a Remove carrying the old value to the old
group's inner index and then an Add carrying the new value to the new
group's inner index, in that order, get-or-creating the new group's inner
index (it is registered on demand exactly when it does not yet exist). -/
theorem grouped_update_cross_group {A : Type} (g : A → Nat)
    (s : GroupedState A) (id : Id) (o n : A)
    (hdiff : g o ≠ g n) (hmem : g o ∈ s.ks) :
    groupedOnUpdate g s (.update id o n) =
      some ⟨getOrCreate s.ks (g n),
            s.log ++ [(g o, .delete id o), (g n, .add id n)]⟩ ∧
    (g n ∉ s.ks → getOrCreate s.ks (g n) = s.ks ++ [g n]) ∧
    (g n ∈ s.ks → getOrCreate s.ks (g n) = s.ks) := by
  refine ⟨?_, fun h => if_neg h, fun h => if_pos h⟩
  rw [groupedOnUpdate, if_neg hdiff, if_pos hmem]

theorem grouped_update_cross_group_witness :
    ((fun v : Nat => v % 2) 2 ≠ (fun v : Nat => v % 2) 1 ∧
      (fun v : Nat => v % 2) 2 ∈ [0]) ∧
    (groupedOnUpdate (fun v : Nat => v % 2) ⟨[0], []⟩ (.update 7 2 1) =
      some ⟨getOrCreate [0] 1, [] ++ [(0, .delete 7 2), (1, .add 7 1)]⟩ ∧
      (1 ∉ [0] → getOrCreate [0] 1 = [0] ++ [1]) ∧
      (1 ∈ [0] → getOrCreate [0] 1 = [0])) :=
  ⟨⟨by decide, by decide⟩,
    grouped_update_cross_group (fun v : Nat => v % 2) ⟨[0], []⟩ 7 2 1
      (by decide) (by decide)⟩

/-- C5: grouped event dispatch per variant: an Add is forwarded to the
get-or-created group of the new value; a Remove is forwarded to the
existing group of the old value; an Update whose old and new values map
to the same group is forwarded unchanged to that single inner index. -/
theorem grouped_dispatch_per_variant {A : Type} (g : A → Nat)
    (s : GroupedState A) (id : Id) (v o n : A) :
    groupedOnUpdate g s (.add id v) =
      some ⟨getOrCreate s.ks (g v), s.log ++ [(g v, .add id v)]⟩ ∧
    (g o ∈ s.ks → groupedOnUpdate g s (.delete id o) =
      some ⟨s.ks, s.log ++ [(g o, .delete id o)]⟩) ∧
    (g o = g n → g o ∈ s.ks → groupedOnUpdate g s (.update id o n) =
      some ⟨s.ks, s.log ++ [(g o, .update id o n)]⟩) :=
  ⟨rfl,
    fun h => by rw [groupedOnUpdate, if_pos h],
    fun he h => by rw [groupedOnUpdate, if_pos he, if_pos h]⟩

theorem grouped_dispatch_per_variant_witness :
    ((fun v : Nat => v % 2) 4 ∈ [0] ∧
      (fun v : Nat => v % 2) 4 = (fun v : Nat => v % 2) 6 ∧
      (fun v : Nat => v % 2) 4 ∈ [0]) ∧
    (groupedOnUpdate (fun v : Nat => v % 2) ⟨[0], []⟩ (.add 3 4) =
      some ⟨getOrCreate [0] 0, [] ++ [(0, .add 3 4)]⟩ ∧
      ((fun v : Nat => v % 2) 4 ∈ [0] →
        groupedOnUpdate (fun v : Nat => v % 2) ⟨[0], []⟩ (.delete 3 4) =
          some ⟨[0], [] ++ [(0, .delete 3 4)]⟩) ∧
      ((fun v : Nat => v % 2) 4 = (fun v : Nat => v % 2) 6 →
        (fun v : Nat => v % 2) 4 ∈ [0] →
        groupedOnUpdate (fun v : Nat => v % 2) ⟨[0], []⟩ (.update 3 4 6) =
          some ⟨[0], [] ++ [(0, .update 3 4 6)]⟩)) :=
  ⟨⟨by decide, by decide, by decide⟩,
    grouped_dispatch_per_variant (fun v : Nat => v % 2) ⟨[0], []⟩ 3 4 4 6⟩

/-- C6: a filtered index `filtered(p, inner)` handles an Update with old
value `o` and new value `n` by the transition table — (F,F) no-op, (F,T)
forward as Add of `n`, (T,F) forward as Remove of `o`, (T,T) forward the
Update unchanged — and consequently any change of the inner index is
caused by an event all of whose payload values satisfy `p`: the inner
index observes only in-scope items. -/
theorem filtered_update_transition {A : Type} (p : A → Bool) (inner : Ix A)
    (id : Id) (o n : A) :
    ((Ix.filtered p inner).onUpdate (.update id o n) =
      match p o, p n with
      | false, false => some (.filtered p inner)
      | false, true => (inner.onUpdate (.add id n)).map (.filtered p)
      | true, false => (inner.onUpdate (.delete id o)).map (.filtered p)
      | true, true => (inner.onUpdate (.update id o n)).map (.filtered p)) ∧
    (∀ inner' : Ix A,
      (Ix.filtered p inner).onUpdate (.update id o n) =
          some (.filtered p inner') →
        inner' = inner ∨
          ∃ e : Update A, inner.onUpdate e = some inner' ∧
            ∀ x ∈ updateValues e, p x = true) := by
  constructor
  · rw [Ix.onUpdate]
  · intro inner' h
    rw [Ix.onUpdate] at h
    cases hpo : p o <;> cases hpn : p n <;> rw [hpo, hpn] at h
    · left
      simp only [Option.some_inj] at h
      injection h with h1 h2 h3
      exact h3.symm
    · right
      rcases Option.map_eq_some'.mp h with ⟨j, hj, hj2⟩
      injection hj2 with h1 h2 h3
      exact ⟨.add id n, h3 ▸ hj, by simp [updateValues, hpn]⟩
    · right
      rcases Option.map_eq_some'.mp h with ⟨j, hj, hj2⟩
      injection hj2 with h1 h2 h3
      exact ⟨.delete id o, h3 ▸ hj, by simp [updateValues, hpo]⟩
    · right
      rcases Option.map_eq_some'.mp h with ⟨j, hj, hj2⟩
      injection hj2 with h1 h2 h3
      exact ⟨.update id o n, h3 ▸ hj, by simp [updateValues, hpo, hpn]⟩

theorem filtered_update_transition_witness :
    (Ix.filtered (fun v : Nat => decide (v % 2 = 0)) (.keys 0)).onUpdate
        (.update 0 1 2) =
      some (.filtered (fun v : Nat => decide (v % 2 = 0)) (.keys ((0 : Id) ::ₘ 0))) ∧
    ((Ix.keys ((0 : Id) ::ₘ 0) : Ix Nat) = .keys 0 ∨
      ∃ e : Update Nat,
        (Ix.keys (0 : Multiset Id) : Ix Nat).onUpdate e =
            some (.keys ((0 : Id) ::ₘ 0)) ∧
          ∀ x ∈ updateValues e, (fun v : Nat => decide (v % 2 = 0)) x = true) :=
  ⟨rfl,
    (filtered_update_transition (fun v : Nat => decide (v % 2 = 0))
        (.keys 0) 0 1 2).2 (.keys ((0 : Id) ::ₘ 0)) rfl⟩

/-- C1: after every sequence of mutations that returns (starting from a
fresh collection over any index template synchronized with the empty
store), every identifier present in any registered index is present in
the store — so the store lookup performed by `Index.item` never fails for
an identifier held by an index — and for a non-filtering, non-grouping
index the multiset of identifiers at each of its primary leaves equals
the multiset of identifiers in the store. -/
theorem mutation_preserves_store_index_sync {A : Type} (i0 : Ix A)
    (ops : List (Op A)) (c' : Collection A) (is : List Id)
    (h0 : i0.good 0)
    (hrun : runOps ops (Collection.init i0) = some (c', is)) :
    (∀ id ∈ c'.root.idsOf, (item c'.store id).isSome) ∧
    (c'.root.plain = true →
      ∀ m ∈ c'.root.leafIdMultisets,
        m = (↑c'.store : Multiset (Id × A)).map Prod.fst) := by
  have hInv0 : Inv (Collection.init i0) :=
    ⟨List.nodup_nil, by simp [Collection.init], by
      show i0.good ↑([] : List (Id × A))
      exact h0⟩
  obtain ⟨⟨hnd, hbd, hgood⟩, -, -⟩ := runOps_inv ops _ _ _ hInv0 hrun
  constructor
  · intro id hid
    have hmem := Ix.idsOf_mem_store c'.root _ hgood id hid
    rw [Multiset.map_coe, Multiset.mem_coe] at hmem
    rw [item]
    rw [Option.isSome_map']
    exact storeLookup_isSome_of_mem hmem
  · intro hplain m hm
    exact Ix.plain_complete c'.root _ hplain hgood m hm

theorem mutation_preserves_store_index_sync_witness :
    Ix.good (.keys 0 : Ix Nat) 0 ∧
    ((∀ id ∈ (Ix.keys ((0 : Id) ::ₘ 0) : Ix Nat).idsOf,
        (item [((0 : Id), (5 : Nat))] id).isSome) ∧
      ((Ix.keys ((0 : Id) ::ₘ 0) : Ix Nat).plain = true →
        ∀ m ∈ (Ix.keys ((0 : Id) ::ₘ 0) : Ix Nat).leafIdMultisets,
          m = (↑[((0 : Id), (5 : Nat))] : Multiset (Id × Nat)).map Prod.fst)) :=
  ⟨by rw [Ix.good]; rfl,
    mutation_preserves_store_index_sync (Ix.keys 0) [Op.insert 5]
      ⟨1, [(0, 5)], Ix.keys ((0 : Id) ::ₘ 0)⟩ [0]
      (by rw [Ix.good]; rfl) rfl⟩

/-- C4: on a collection whose root index is synchronized with its store,
applying `update(i, v)` to an identifier `i` present in the store yields
the same store contents (as a multiset) and the same index state as
`remove(i)` followed by `insert_at(i, v)`. -/
theorem update_eq_remove_insert_at {A : Type} (c : Collection A)
    (id : Id) (v o : A)
    (hnd : (c.store.map Prod.fst).Nodup)
    (hlk : storeLookup c.store id = some o)
    (hg : c.root.good ↑c.store) :
    ∃ cU cR cRI : Collection A,
      c.update id v = some cU ∧
      c.remove id = some cR ∧
      cR.insertAt id v = some cRI ∧
      cU.nextId = cRI.nextId ∧
      (↑cU.store : Multiset (Id × A)) = ↑cRI.store ∧
      cU.root = cRI.root := by
  have hσ := store_cons_decomp hnd hlk
  have hg' : c.root.good ((id, o) ::ₘ ↑(storeRemove c.store id)) := by
    rwa [hσ] at hg
  obtain ⟨i1, hdel, hg1⟩ := Ix.delete_good c.root _ id o hg'
  obtain ⟨i2, hadd⟩ := Ix.add_total i1 id v
  have hupd : c.root.onUpdate (.update id o v) = some i2 := by
    rw [Ix.update_eq_delete_add c.root _ id o v hg', hdel, Option.some_bind, hadd]
  refine ⟨⟨c.nextId, storeReplace c.store id v, i2⟩,
    ⟨c.nextId, storeRemove c.store id, i1⟩,
    ⟨c.nextId, storeRemove c.store id ++ [(id, v)], i2⟩, ?_, ?_, ?_, rfl, ?_, rfl⟩
  · rw [Collection.update, hlk, Option.some_bind, hupd, Option.map_some']
  · rw [Collection.remove, hlk, Option.some_bind, hdel, Option.map_some']
  · rw [Collection.insertAt]
    show (i1.onUpdate (.add id v)).map _ = _
    rw [hadd, Option.map_some']
  · show (↑(storeReplace c.store id v) : Multiset (Id × A)) =
      ↑(storeRemove c.store id ++ [(id, v)])
    rw [storeReplace_decomp v hnd hlk, coe_append_singleton]

theorem update_eq_remove_insert_at_witness :
    ((([((0 : Id), (5 : Nat))] : List (Id × Nat)).map Prod.fst).Nodup ∧
      storeLookup [((0 : Id), (5 : Nat))] 0 = some 5 ∧
      Ix.good (.keys ((0 : Id) ::ₘ 0) : Ix Nat) ↑[((0 : Id), (5 : Nat))]) ∧
    (∃ cU cR cRI : Collection Nat,
      Collection.update ⟨1, [(0, 5)], Ix.keys ((0 : Id) ::ₘ 0)⟩ 0 7 = some cU ∧
      Collection.remove ⟨1, [(0, 5)], Ix.keys ((0 : Id) ::ₘ 0)⟩ 0 = some cR ∧
      cR.insertAt 0 7 = some cRI ∧
      cU.nextId = cRI.nextId ∧
      (↑cU.store : Multiset (Id × Nat)) = ↑cRI.store ∧
      cU.root = cRI.root) :=
  ⟨⟨by decide, rfl, by rw [Ix.good]; rfl⟩,
    update_eq_remove_insert_at ⟨1, [(0, 5)], Ix.keys ((0 : Id) ::ₘ 0)⟩ 0 7 5
      (by decide) rfl (by rw [Ix.good]; rfl)⟩

/-- C8: identifiers issued by successive inserts are exactly
0, 1, 2, ... — strictly increasing from 0 — and an identifier removed at
any point of a successful run is never issued by any later insert. -/
theorem insert_ids_monotone_fresh {A : Type} (i0 : Ix A) (h0 : i0.good 0) :
    (∀ (ops : List (Op A)) (c' : Collection A) (is : List Id),
      runOps ops (Collection.init i0) = some (c', is) →
      is = List.range is.length) ∧
    (∀ (pre : List (Op A)) (id : Id) (post : List (Op A))
        (c' : Collection A) (is : List Id),
      runOps (pre ++ Op.remove id :: post) (Collection.init i0) = some (c', is) →
      ∃ r1 r2 r3 : Collection A × List Id,
        runOps pre (Collection.init i0) = some r1 ∧
        applyOp r1.1 (Op.remove id) = some r2 ∧
        runOps post r2.1 = some r3 ∧
        is = r1.2 ++ r3.2 ∧
        id ∉ r3.2) := by
  have hInv0 : Inv (Collection.init i0) :=
    ⟨List.nodup_nil, by simp [Collection.init], by
      show i0.good ↑([] : List (Id × A))
      exact h0⟩
  constructor
  · intro ops c' is hrun
    obtain ⟨-, -, his⟩ := runOps_inv ops _ _ _ hInv0 hrun
    have hinit : (Collection.init i0).nextId = 0 := rfl
    rw [hinit, Nat.sub_zero] at his
    rw [his, List.length_range', List.range_eq_range']
  · intro pre id post c' is hrun
    rw [runOps_append] at hrun
    rcases Option.bind_eq_some.mp hrun with ⟨r1, h1, h2⟩
    rcases Option.map_eq_some'.mp h2 with ⟨rrest, h3, h4⟩
    rw [runOps] at h3
    rcases Option.bind_eq_some.mp h3 with ⟨r2, h5, h6⟩
    rcases Option.map_eq_some'.mp h6 with ⟨r3, h7, h8⟩
    obtain ⟨hInv1, hle1, -⟩ := runOps_inv pre _ _ _ hInv0 h1
    obtain ⟨hInv2, hle2, his2⟩ := applyOp_inv hInv1 h5
    obtain ⟨-, -, his3⟩ := runOps_inv post _ _ _ hInv2 h7
    have hr22 : r2.2 = [] := by
      rw [applyOp] at h5
      rcases Option.map_eq_some'.mp h5 with ⟨cr, -, hcr⟩
      exact (congrArg Prod.snd hcr).symm
    have hlt : id < r1.1.nextId := by
      rw [applyOp] at h5
      rcases Option.map_eq_some'.mp h5 with ⟨cr, hrem, -⟩
      rw [Collection.remove] at hrem
      rcases Option.bind_eq_some.mp hrem with ⟨o, hlko, -⟩
      have := storeLookup_mem hlko
      exact hInv1.2.1 id (List.mem_map.mpr ⟨(id, o), this, rfl⟩)
    refine ⟨r1, r2, r3, h1, h5, h7, ?_, ?_⟩
    · have his : r1.2 ++ rrest.2 = is := congrArg Prod.snd h4
      have hrr : rrest.2 = r2.2 ++ r3.2 := (congrArg Prod.snd h8).symm
      rw [← his, hrr, hr22, List.nil_append]
    · intro hmem
      rw [his3] at hmem
      have hge := (List.mem_range'_1.mp hmem).1
      exact lt_irrefl id (lt_of_lt_of_le hlt (le_trans hle2 hge))

theorem insert_ids_monotone_fresh_witness :
    Ix.good (.keys 0 : Ix Nat) 0 ∧
    ([(0 : Id)] = List.range [(0 : Id)].length) :=
  ⟨by rw [Ix.good]; rfl,
    (insert_ids_monotone_fresh (Ix.keys 0 : Ix Nat) (by rw [Ix.good]; rfl)).1
      [Op.insert (7 : Nat)] ⟨1, [(0, 7)], Ix.keys ((0 : Id) ::ₘ 0)⟩ [0] rfl⟩

/-- C9: after any finite sequence of `set(id, value)` and `delete(id)`
calls, the `(id, value)` pairs `IdMap.forEach` enumerates are exactly the
entries of a reference map keyed by the identifier's value after the same
sequence — a pair is enumerated iff the reference map holds that value
under that identifier — and each identifier is enumerated exactly once
(the enumerated keys are pairwise distinct). -/
theorem idmap_matches_reference {V : Type} (calls : List (MapCall V)) :
    (((runIdMap calls).entries.map Prod.fst).Nodup) ∧
    ∀ (id : Id) (v : V),
      ((id, v) ∈ (runIdMap calls).entries ↔ runRef calls id = some v) :=
  IdMap.run_rel calls [] (fun _ => none) List.nodup_nil (by simp)

theorem idmap_matches_reference_witness :
    ((runIdMap [MapCall.set 3 true, MapCall.set 3 false,
        MapCall.set 5 true, MapCall.del 3]).entries.map Prod.fst).Nodup ∧
    ∀ (id : Id) (v : Bool),
      ((id, v) ∈ (runIdMap [MapCall.set 3 true, MapCall.set 3 false,
          MapCall.set 5 true, MapCall.del 3]).entries ↔
        runRef [MapCall.set 3 true, MapCall.set 3 false,
          MapCall.set 5 true, MapCall.del 3] id = some v) :=
  idmap_matches_reference
    [MapCall.set 3 true, MapCall.set 3 false, MapCall.set 5 true, MapCall.del 3]

end CompIdx
